import Mathlib

/-!
Verification of the county-splits metrics engine (`metrics.py`).

The engine consumes a Python dictionary whose keys are ordered pairs
(county identifier, district identifier) and whose values are the integer
populations of the county/district intersections.  We embed the dictionary
as an association list with unique keys (`Pops`); county and district
identifiers are opaque tokens, modelled as naturals.  Python's `set(...)`
of county identifiers is modelled as the deduplicated list of first key
components: every quantity computed from it in the source is a sum over
that set, hence independent of the set's iteration order.

Python integer arithmetic is exact (`ℤ`); Python's true division `/` of
integers is exact on the magnitudes involved and modelled over `ℚ`, with a
`ZeroDivisionError` (`Except.error`) when the divisor is zero, exactly as
the interpreter raises.  `min_entropy`'s floating-point core (numpy
`log2`) is modelled over `ℝ` extended with the IEEE special values that
numpy produces (`RVal`): `log2 0 = -inf`, `log2 x = nan` for `x < 0`,
`0 * (-inf) = nan`, and so on; see each operation's comment.
-/

namespace CountySplits

/-- A dictionary key: (county identifier, district identifier). -/
abbrev Key := ℕ × ℕ

/-- The `pops` dictionary: an association list from keys to integer
populations.  Python dict keys are unique; theorems that need this state
`(pops.map Prod.fst).Nodup`. -/
abbrev Pops := List (Key × ℤ)

/-- Python exceptions raised by the metrics core.  The only exception any
metric raises is `ZeroDivisionError`, from `/` with a zero divisor. -/
inductive PyErr where
  | zeroDivisionError
deriving DecidableEq, Repr

instance {ε α : Type} [DecidableEq ε] [DecidableEq α] : DecidableEq (Except ε α)
  | .error e, .error f =>
      if h : e = f then isTrue (by rw [h]) else isFalse (fun hc => h (Except.error.inj hc))
  | .error _, .ok _ => isFalse (fun hc => Except.noConfusion hc)
  | .ok _, .error _ => isFalse (fun hc => Except.noConfusion hc)
  | .ok a, .ok b =>
      if h : a = b then isTrue (by rw [h]) else isFalse (fun hc => h (Except.ok.inj hc))

/-- `set([key[0] for key in pops])`: the distinct county identifiers. -/
def countiesOf (pops : Pops) : List ℕ :=
  (pops.map (fun kv => kv.1.1)).dedup

/-- `[key for key in pops if key[0] == county]` together with the looked-up
values: the entries of one county. -/
def countyEntries (pops : Pops) (c : ℕ) : Pops :=
  pops.filter (fun kv => kv.1.1 = c)

/-- `sum([pops[key] for key in pops if key[0] == county])`: a county's
total population. -/
def countyPop (pops : Pops) (c : ℕ) : ℤ :=
  ((countyEntries pops c).map (fun kv => kv.2)).sum

/-- `sum(pops.values())`: the grand total population of the mapping. -/
def totalPop (pops : Pops) : ℤ :=
  (pops.map (fun kv => kv.2)).sum

/-- `threshold(pops, threshold=50)` (value semantics): the source collects
`keys_to_remove = [key for key in pops if pops[key] < threshold]` and pops
each from the dictionary, so the surviving entries are exactly those with
`¬ (value < t)`, in their original order.  (The in-place mutation is
modelled separately by `thresholdInPlace`.) -/
def threshold (pops : Pops) (t : ℤ) : Pops :=
  pops.filter (fun kv => ¬ kv.2 < t)

/-- The heap for the mutation model: a store assigning to each reference
(dictionary object identity) its current contents. -/
abbrev Heap := ℕ → Pops

/-- `threshold` as the source executes it: the caller passes a reference
`r` to a dictionary living in heap `h`; the function deletes the
below-threshold entries from that same object and returns `pops` itself,
i.e. the same reference.  No other object is touched and no copy is made. -/
def thresholdInPlace (h : Heap) (r : ℕ) (t : ℤ) : Heap × ℕ :=
  (fun r' => if r' = r then threshold (h r) t else h r', r)

/-- `counties_split(pops)`: `sum([1 for county in counties if
len([key for key in pops if key[0] == county]) > 1])`.  The sum of a list
holding `1` per qualifying county is the number of qualifying counties. -/
def counties_split (pops : Pops) : ℕ :=
  ((countiesOf pops).filter (fun c => 1 < (countyEntries pops c).length)).length

/-- `county_intersections(pops)`: `len(pops)`. -/
def county_intersections (pops : Pops) : ℕ :=
  pops.length

/-- `i * (i - 1) / 2` for a Python integer `i`: the product is exact
integer arithmetic, the final `/` is true division, exact over `ℚ`. -/
def pairs2 (n : ℤ) : ℚ :=
  (n * (n - 1) : ℤ) / 2

/-- `preserved_pairs(pops)`: numerator `sum([i*(i-1)/2 for i in
pops.values()])`, denominator the same over the per-county totals; the
final `same_county_same_district / same_county` raises
`ZeroDivisionError` when the denominator is zero. -/
def preserved_pairs (pops : Pops) : Except PyErr ℚ :=
  let same_county_same_district : ℚ := (pops.map (fun kv => pairs2 kv.2)).sum
  let same_county : ℚ := ((countiesOf pops).map (fun c => pairs2 (countyPop pops c))).sum
  if same_county = 0 then .error .zeroDivisionError
  else .ok (same_county_same_district / same_county)

/-- Python's `max` over a list of integers, as `max(...)` left-folds over
the elements.  The source only applies it to a county's entries, which are
nonempty for every county drawn from the mapping's own keys; `max([])`
would raise `ValueError`, a case no county can reach, and the `[]` branch
here is arbitrary. -/
def pyMax (l : List ℤ) : ℤ :=
  match l with
  | [] => 0
  | a :: as => as.foldl max a

/-- `max([pops[key] for key in pops if key[0] == county])`. -/
def countyMax (pops : Pops) (c : ℕ) : ℤ :=
  pyMax ((countyEntries pops c).map (fun kv => kv.2))

/-- `largest_intersection(pops)`: sums each county's largest intersection
and divides by `sum(pops.values())`; the division raises
`ZeroDivisionError` when the grand total is zero. -/
def largest_intersection (pops : Pops) : Except PyErr ℚ :=
  let county_maxes : ℤ := ((countiesOf pops).map (fun c => countyMax pops c)).sum
  if totalPop pops = 0 then .error .zeroDivisionError
  else .ok ((county_maxes : ℚ) / (totalPop pops : ℚ))

/-- A numpy `float64` value as `min_entropy` manipulates it: a finite real
(rounding is not modelled; the arithmetic is exact over `ℝ`), `nan`,
`+inf`, or `-inf`. -/
inductive RVal where
  | nan : RVal
  | pinf : RVal
  | ninf : RVal
  | val : ℝ → RVal

/-- `np.log2` applied to the exact value of `pops[key] / county_size`:
positive arguments give the real base-2 logarithm, `np.log2(0.0) = -inf`,
and a negative argument gives `nan` (each with a runtime warning, not an
exception). -/
noncomputable def npLog2 (q : ℚ) : RVal :=
  if 0 < q then .val (Real.logb 2 (q : ℝ))
  else if q = 0 then .ninf else .nan

/-- A Python integer times a numpy float64 (`pops[key] * np.log2(...)`):
`nan` absorbs, `0 * (±inf) = nan`, a nonzero integer scales an infinity by
its sign, and finite values multiply exactly. -/
noncomputable def intMulRVal (n : ℤ) (r : RVal) : RVal :=
  match r with
  | .nan => .nan
  | .pinf => if 0 < n then .pinf else if n = 0 then .nan else .ninf
  | .ninf => if 0 < n then .ninf else if n = 0 then .nan else .pinf
  | .val x => .val ((n : ℝ) * x)

/-- IEEE float64 addition on `RVal`: `nan` absorbs, opposite infinities
give `nan`, an infinity absorbs finite values. -/
noncomputable def addRVal (a b : RVal) : RVal :=
  match a, b with
  | .nan, _ => .nan
  | _, .nan => .nan
  | .pinf, .ninf => .nan
  | .ninf, .pinf => .nan
  | .pinf, _ => .pinf
  | .ninf, _ => .ninf
  | .val _, .pinf => .pinf
  | .val _, .ninf => .ninf
  | .val x, .val y => .val (x + y)

/-- Python's `sum(...)` over float64 values: a left fold starting from the
integer `0`, which coerces to the float `0.0` on first addition. -/
noncomputable def sumRVal (l : List RVal) : RVal :=
  l.foldl addRVal (.val 0)

/-- `(-1) * s / total` for a numpy float64 `s` and Python integer `total`.
A nonzero `total` divides exactly (signs of infinities flip when `total`
is negative); numpy division by integer zero yields `nan` from `0.0` or
`nan`, and a signed infinity otherwise, without raising. -/
noncomputable def negDivRVal (s : RVal) (total : ℤ) : RVal :=
  match s with
  | .nan => .nan
  | .pinf => if 0 ≤ total then .ninf else .pinf
  | .ninf => if 0 ≤ total then .pinf else .ninf
  | .val x =>
      if total = 0 then
        if x = 0 then .nan else if 0 < x then .ninf else .pinf
      else .val (-x / (total : ℝ))

/-- `1 / (1 + c_entropy)` for a numpy float64 `c_entropy`: `nan` absorbs,
`1/(±inf) = ±0.0` (modelled as the real `0`), and `1/(1 + (-1)) = 1/0.0`
is numpy's `+inf`, not an exception. -/
noncomputable def recip1p (r : RVal) : RVal :=
  match r with
  | .nan => .nan
  | .pinf => .val 0
  | .ninf => .val 0
  | .val x => if x = -1 then .pinf else .val (1 / (1 + x))

/-- One county's `sum([pops[key] * np.log2(pops[key] / county_size) for
key in districts])`.  The inner `pops[key] / county_size` is Python true
division of integers (exact, over `ℚ`); the caller has already ruled out
`county_size = 0`. -/
noncomputable def countyEntropy (pops : Pops) (c : ℕ) : RVal :=
  sumRVal ((countyEntries pops c).map
    (fun kv => intMulRVal kv.2 (npLog2 ((kv.2 : ℚ) / (countyPop pops c : ℚ)))))

/-- `min_entropy(pops)`.  The per-county loop raises `ZeroDivisionError`
at `pops[key] / county_size` whenever some county's total is zero (which
county is hit first depends on set order, but the exception and its type
do not).  Otherwise: with no counties the numerator is the Python integer
`0` and the final division raises on a zero grand total; with at least one
county the numerator is a numpy float64, so the final division and the
reciprocal follow numpy semantics (`negDivRVal`, `recip1p`) and never
raise. -/
noncomputable def min_entropy (pops : Pops) : Except PyErr RVal :=
  let counties := countiesOf pops
  if counties.any (fun c => countyPop pops c = 0) then .error .zeroDivisionError
  else if counties.isEmpty then
    if totalPop pops = 0 then .error .zeroDivisionError
    else .ok (.val 1)
  else
    .ok (recip1p (negDivRVal (sumRVal (counties.map (fun c => countyEntropy pops c)))
      (totalPop pops)))

/-- The spec's description of the split-count metric: a county counts once
when it intersects more than one distinct district. -/
def countyDistricts (pops : Pops) (c : ℕ) : List ℕ :=
  ((countyEntries pops c).map (fun kv => kv.1.2)).dedup

/-- Modelled from the spec: the count of counties that intersect more than
one distinct district (spec section 4.2's description of the metric). -/
def countiesSplitSpec (pops : Pops) : ℕ :=
  ((countiesOf pops).filter (fun c => 1 < (countyDistricts pops c).length)).length

section Helpers

variable {α β M : Type} [AddCommMonoid M]

lemma sum_map_add (S : List β) (F G : β → M) :
    (S.map (fun c => F c + G c)).sum = (S.map F).sum + (S.map G).sum := by
  induction S with
  | nil => simp
  | cons s S ih => simp [ih]; abel

lemma sum_map_ite_of_not_mem [DecidableEq β] (S : List β) (b : β) (v : M)
    (hb : b ∉ S) : (S.map (fun c => if b = c then v else 0)).sum = 0 := by
  induction S with
  | nil => simp
  | cons s S ih =>
    simp only [List.mem_cons, not_or] at hb
    simp [hb.1, ih hb.2]

lemma sum_map_ite_eq [DecidableEq β] (S : List β) (b : β) (v : M)
    (hS : S.Nodup) (hb : b ∈ S) :
    (S.map (fun c => if b = c then v else 0)).sum = v := by
  induction S with
  | nil => simp at hb
  | cons s S ih =>
    rcases List.nodup_cons.mp hS with ⟨hs, hS'⟩
    rcases List.mem_cons.mp hb with h | h
    · subst h
      simp [sum_map_ite_of_not_mem S b v hs]
    · have hbs : b ≠ s := fun hbs => hs (hbs ▸ h)
      simp only [List.map_cons, List.sum_cons, if_neg hbs, ih hS' h, zero_add]

/-- Summing a quantity county-by-county over the distinct values of a
grouping key recovers the sum over the whole list. -/
lemma sum_map_filter_partition [DecidableEq β]
    (l : List α) (g : α → β) (f : α → M) (S : List β)
    (hS : S.Nodup) (hmem : ∀ x ∈ l, g x ∈ S) :
    (S.map (fun c => ((l.filter (fun x => g x = c)).map f).sum)).sum
      = (l.map f).sum := by
  induction l with
  | nil => simp
  | cons a l ih =>
    have ha : g a ∈ S := hmem a (List.mem_cons_self a l)
    have hmem' : ∀ x ∈ l, g x ∈ S := fun x hx => hmem x (List.mem_cons_of_mem a hx)
    have step : ∀ c : β,
        (((a :: l).filter (fun x => g x = c)).map f).sum
          = (if g a = c then f a else 0) + ((l.filter (fun x => g x = c)).map f).sum := by
      intro c
      by_cases h : g a = c
      · simp [List.filter_cons, h]
      · simp [List.filter_cons, h]
    calc (S.map (fun c => (((a :: l).filter (fun x => g x = c)).map f).sum)).sum
        = (S.map (fun c => (if g a = c then f a else 0)
            + ((l.filter (fun x => g x = c)).map f).sum)).sum := by
          simp only [step]
      _ = (S.map (fun c => if g a = c then f a else 0)).sum
            + (S.map (fun c => ((l.filter (fun x => g x = c)).map f).sum)).sum :=
          sum_map_add S _ _
      _ = f a + (l.map f).sum := by
          rw [sum_map_ite_eq S (g a) (f a) hS ha, ih hmem']
      _ = ((a :: l).map f).sum := by simp

end Helpers

section ThresholdClaims

/-- Claim C4: for every mapping `pops` and every threshold `t`,
`threshold pops t` contains exactly the entries of `pops` whose value is
not strictly less than `t`: entries with value `< t` are removed, entries
with value `≥ t` (including equality) are kept with their values
unchanged. -/
theorem claim_C4_threshold_filters (pops : Pops) (t : ℤ) (kv : Key × ℤ) :
    kv ∈ threshold pops t ↔ kv ∈ pops ∧ t ≤ kv.2 := by
  simp [threshold, List.mem_filter, not_lt]

theorem claim_C4_witness :
    (((0 : ℕ), (0 : ℕ)), (50 : ℤ))
        ∈ threshold [(((0 : ℕ), (0 : ℕ)), (50 : ℤ)), (((0 : ℕ), (1 : ℕ)), (49 : ℤ))] 50
      ↔ (((0 : ℕ), (0 : ℕ)), (50 : ℤ))
          ∈ [(((0 : ℕ), (0 : ℕ)), (50 : ℤ)), (((0 : ℕ), (1 : ℕ)), (49 : ℤ))]
        ∧ (50 : ℤ) ≤ 50 :=
  claim_C4_threshold_filters
    [(((0 : ℕ), (0 : ℕ)), (50 : ℤ)), (((0 : ℕ), (1 : ℕ)), (49 : ℤ))] 50
    (((0 : ℕ), (0 : ℕ)), (50 : ℤ))

/-- Claim C9: filtering at threshold `0` removes nothing from a mapping of
non-negative populations, so `county_intersections` afterwards equals the
entry count of the original mapping. -/
theorem claim_C9_threshold_zero_preserves_count (pops : Pops)
    (h : ∀ kv ∈ pops, 0 ≤ kv.2) :
    county_intersections (threshold pops 0) = pops.length := by
  unfold county_intersections threshold
  have : pops.filter (fun kv => ¬ kv.2 < 0) = pops := by
    apply List.filter_eq_self.mpr
    intro kv hkv
    simpa using h kv hkv
  rw [this]

theorem claim_C9_witness :
    county_intersections (threshold [(((0 : ℕ), (0 : ℕ)), (5 : ℤ))] 0) = 1 :=
  claim_C9_threshold_zero_preserves_count [(((0 : ℕ), (0 : ℕ)), (5 : ℤ))] (by decide)

/-- Claim C10: `threshold` mutates its argument in place and returns the
same dictionary.  In the heap model, the call returns the very reference
it was given, and reading the caller's original object through that
returned reference shows exactly the surviving entries — the removed
entries are gone from the caller's own mapping, and no other object ever
changes (no fresh copy is made). -/
theorem claim_C10_threshold_mutates_in_place (h : Heap) (r : ℕ) (t : ℤ) :
    (thresholdInPlace h r t).2 = r ∧
    (∀ kv : Key × ℤ,
        kv ∈ (thresholdInPlace h r t).1 ((thresholdInPlace h r t).2)
          ↔ kv ∈ h r ∧ ¬ kv.2 < t) ∧
    (∀ r' : ℕ, r' ≠ r → (thresholdInPlace h r t).1 r' = h r') := by
  refine ⟨rfl, ?_, ?_⟩
  · intro kv
    simp [thresholdInPlace, threshold, List.mem_filter]
  · intro r' hr'
    simp [thresholdInPlace, hr']

theorem claim_C10_witness :
    (thresholdInPlace (fun _ => [(((0 : ℕ), (0 : ℕ)), (7 : ℤ))]) 0 50).2 = 0 :=
  (claim_C10_threshold_mutates_in_place (fun _ => [(((0 : ℕ), (0 : ℕ)), (7 : ℤ))]) 0 50).1

end ThresholdClaims

section SplitCountClaims

lemma countyEntries_keys_nodup (pops : Pops) (c : ℕ)
    (h : (pops.map Prod.fst).Nodup) :
    ((countyEntries pops c).map Prod.fst).Nodup :=
  h.sublist ((List.filter_sublist pops).map Prod.fst)

lemma countyEntries_fst_eq (pops : Pops) (c : ℕ) :
    ∀ kv ∈ countyEntries pops c, kv.1.1 = c := by
  intro kv hkv
  have := (List.mem_filter.mp hkv).2
  simpa using this

/-- With unique dictionary keys, the entries of one county carry pairwise
distinct district identifiers. -/
lemma countyEntries_districts_nodup (pops : Pops) (c : ℕ)
    (h : (pops.map Prod.fst).Nodup) :
    ((countyEntries pops c).map (fun kv => kv.1.2)).Nodup := by
  have hkeys := countyEntries_keys_nodup pops c h
  have : ((countyEntries pops c).map (fun kv => kv.1.2))
      = (((countyEntries pops c).map Prod.fst).map Prod.snd) := by
    simp [List.map_map]
  rw [this]
  apply hkeys.map_on
  intro x hx y hy hxy
  rcases List.mem_map.mp hx with ⟨kx, hkx, rfl⟩
  rcases List.mem_map.mp hy with ⟨ky, hky, rfl⟩
  have hx1 : kx.1.1 = c := countyEntries_fst_eq pops c kx hkx
  have hy1 : ky.1.1 = c := countyEntries_fst_eq pops c ky hky
  exact Prod.ext (hx1.trans hy1.symm) hxy

/-- Claim C8: `counties_split` returns the number of distinct counties
occurring in two or more keys, which (keys being unique) is exactly the
number of counties intersecting more than one distinct district. -/
theorem claim_C8_counties_split_counts_multidistrict_counties (pops : Pops)
    (h : (pops.map Prod.fst).Nodup) :
    counties_split pops = countiesSplitSpec pops := by
  unfold counties_split countiesSplitSpec
  congr 1
  apply List.filter_congr
  intro c _
  have hnd := countyEntries_districts_nodup pops c h
  have hdedup : countyDistricts pops c = (countyEntries pops c).map (fun kv => kv.1.2) :=
    List.dedup_eq_self.mpr hnd
  have hlen : (countyDistricts pops c).length = (countyEntries pops c).length := by
    rw [hdedup, List.length_map]
  simp [hlen]

theorem claim_C8_witness :
    counties_split [(((0 : ℕ), (1 : ℕ)), (60 : ℤ)), (((0 : ℕ), (2 : ℕ)), (40 : ℤ)),
        (((1 : ℕ), (1 : ℕ)), (50 : ℤ))]
      = countiesSplitSpec [(((0 : ℕ), (1 : ℕ)), (60 : ℤ)), (((0 : ℕ), (2 : ℕ)), (40 : ℤ)),
        (((1 : ℕ), (1 : ℕ)), (50 : ℤ))] :=
  claim_C8_counties_split_counts_multidistrict_counties _ (by decide)

end SplitCountClaims

section RatioHelpers

lemma mem_le_sum_of_nonneg {M : Type} [OrderedAddCommMonoid M] {l : List M}
    (h : ∀ x ∈ l, 0 ≤ x) : ∀ x ∈ l, x ≤ l.sum := by
  induction l with
  | nil => intro x hx; simp at hx
  | cons a l ih =>
    intro x hx
    have ha : 0 ≤ a := h a (List.mem_cons_self a l)
    have hl : ∀ y ∈ l, 0 ≤ y := fun y hy => h y (List.mem_cons_of_mem a hy)
    rcases List.mem_cons.mp hx with rfl | hx
    · simpa using le_add_of_nonneg_right (List.sum_nonneg hl)
    · simpa using le_add_of_nonneg_left (a := l.sum) (b := a) ha |>.trans' (ih hl x hx)

/-- The grand total is the sum of the per-county totals. -/
lemma totalPop_eq_sum_countyPop (pops : Pops) :
    ((countiesOf pops).map (fun c => countyPop pops c)).sum = totalPop pops := by
  have := sum_map_filter_partition pops (fun kv => kv.1.1) (fun kv => kv.2)
    (countiesOf pops) (List.nodup_dedup _)
    (fun x hx => List.mem_dedup.mpr (List.mem_map_of_mem _ hx))
  simpa [countiesOf, countyEntries, countyPop, totalPop] using this

/-- Any per-entry quantity sums the same way entry-by-entry or
county-by-county. -/
lemma sum_over_counties {M : Type} [AddCommMonoid M] (pops : Pops) (f : Key × ℤ → M) :
    ((countiesOf pops).map (fun c => ((countyEntries pops c).map f).sum)).sum
      = (pops.map f).sum := by
  have := sum_map_filter_partition pops (fun kv => kv.1.1) f
    (countiesOf pops) (List.nodup_dedup _)
    (fun x hx => List.mem_dedup.mpr (List.mem_map_of_mem _ hx))
  simpa [countiesOf, countyEntries] using this

lemma countyEntries_ne_nil (pops : Pops) (c : ℕ) (hc : c ∈ countiesOf pops) :
    countyEntries pops c ≠ [] := by
  rcases List.mem_map.mp (List.mem_dedup.mp hc) with ⟨kv, hkv, hfst⟩
  intro hnil
  have : kv ∈ countyEntries pops c := by
    simp [countyEntries, List.mem_filter, hkv, hfst]
  simp [hnil] at this

lemma mul_pred_nonneg (n : ℤ) : 0 ≤ n * (n - 1) := by
  rcases le_or_lt 1 n with h | h
  · exact mul_nonneg (by omega) (by omega)
  · have h0 : n ≤ 0 := by omega
    have h1 : n - 1 ≤ 0 := by omega
    have h2 : 0 ≤ (-n) * (-(n - 1)) := mul_nonneg (neg_nonneg.mpr h0) (neg_nonneg.mpr h1)
    nlinarith

lemma pairs2_nonneg (n : ℤ) : 0 ≤ pairs2 n := by
  unfold pairs2
  have := mul_pred_nonneg n
  positivity

lemma pairs2_eq_zero {n : ℤ} (h0 : 0 ≤ n) (h1 : n ≤ 1) : pairs2 n = 0 := by
  have : n = 0 ∨ n = 1 := by omega
  rcases this with rfl | rfl <;> simp [pairs2]

lemma pairs2_one_le {n : ℤ} (h : 2 ≤ n) : 1 ≤ pairs2 n := by
  unfold pairs2
  rw [le_div_iff₀ (by norm_num)]
  have : (2 : ℤ) ≤ n * (n - 1) := by nlinarith
  calc (1 : ℚ) * 2 = ((2 : ℤ) : ℚ) := by norm_num
    _ ≤ ((n * (n - 1) : ℤ) : ℚ) := by exact_mod_cast this

lemma sum_map_pairs2 (l : List ℤ) :
    (l.map pairs2).sum = ((l.map (fun n => n * (n - 1))).sum : ℤ) / 2 := by
  induction l with
  | nil => simp
  | cons a l ih =>
    simp only [List.map_cons, List.sum_cons, ih, pairs2]
    push_cast
    ring

/-- Superadditivity of `n * (n - 1)` over non-negative integers: pairs
within the parts are a subset of the pairs within the whole. -/
lemma sum_mul_pred_le (l : List ℤ) (h : ∀ x ∈ l, 0 ≤ x) :
    (l.map (fun n => n * (n - 1))).sum ≤ l.sum * (l.sum - 1) := by
  induction l with
  | nil => simp
  | cons a l ih =>
    have ha : 0 ≤ a := h a (List.mem_cons_self a l)
    have hl : ∀ y ∈ l, 0 ≤ y := fun y hy => h y (List.mem_cons_of_mem a hy)
    have hs : 0 ≤ l.sum := List.sum_nonneg hl
    have hle := ih hl
    simp only [List.map_cons, List.sum_cons]
    nlinarith

lemma foldl_max_le (as : List ℤ) :
    ∀ a : ℤ, a ≤ as.foldl max a ∧ ∀ x ∈ as, x ≤ as.foldl max a := by
  induction as with
  | nil => intro a; simp
  | cons b as ih =>
    intro a
    have h := ih (max a b)
    refine ⟨le_trans (le_max_left a b) h.1, ?_⟩
    intro x hx
    rcases List.mem_cons.mp hx with rfl | hx
    · exact le_trans (le_max_right a x) h.1
    · exact h.2 x hx

lemma foldl_max_mem (as : List ℤ) :
    ∀ a : ℤ, as.foldl max a = a ∨ as.foldl max a ∈ as := by
  induction as with
  | nil => intro a; simp
  | cons b as ih =>
    intro a
    rcases ih (max a b) with h | h
    · rcases max_choice a b with hab | hab
      · left; simpa [hab] using h
      · right; rw [List.foldl_cons, h, hab]; exact List.mem_cons_self b as
    · right; exact List.mem_cons_of_mem b h

lemma pyMax_mem {l : List ℤ} (h : l ≠ []) : pyMax l ∈ l := by
  match l with
  | [] => exact absurd rfl h
  | a :: as =>
    rcases foldl_max_mem as a with h' | h'
    · simp [pyMax, h']
    · exact List.mem_cons_of_mem a h'

lemma le_pyMax {l : List ℤ} : ∀ x ∈ l, x ≤ pyMax l := by
  match l with
  | [] => intro x hx; simp at hx
  | a :: as =>
    intro x hx
    rcases List.mem_cons.mp hx with rfl | hx
    · exact (foldl_max_le as x).1
    · exact (foldl_max_le as a).2 x hx

end RatioHelpers

section PreservedPairsClaim

/-- Claim C5: on a non-empty mapping of non-negative integer populations
with at least one county of total population `≥ 2`, `preserved_pairs`
returns exactly the sum over entries of `p·(p−1)/2` divided by the sum
over counties of `P·(P−1)/2`, the value lies in `[0,1]`, and on
`[(A,1) ↦ 60, (A,2) ↦ 40]` it equals `(1770 + 780) / 4950`. -/
theorem claim_C5_preserved_pairs_formula (pops : Pops)
    (hne : pops ≠ [])
    (hnn : ∀ kv ∈ pops, 0 ≤ kv.2)
    (hbig : ∃ c ∈ countiesOf pops, 2 ≤ countyPop pops c) :
    preserved_pairs pops
        = .ok ((pops.map (fun kv => pairs2 kv.2)).sum
            / ((countiesOf pops).map (fun c => pairs2 (countyPop pops c))).sum) ∧
    0 ≤ (pops.map (fun kv => pairs2 kv.2)).sum
          / ((countiesOf pops).map (fun c => pairs2 (countyPop pops c))).sum ∧
    (pops.map (fun kv => pairs2 kv.2)).sum
          / ((countiesOf pops).map (fun c => pairs2 (countyPop pops c))).sum ≤ 1 ∧
    preserved_pairs [(((0 : ℕ), (1 : ℕ)), (60 : ℤ)), (((0 : ℕ), (2 : ℕ)), (40 : ℤ))]
        = .ok ((1770 + 780 : ℚ) / 4950) := by
  set num : ℚ := (pops.map (fun kv => pairs2 kv.2)).sum with hnum_def
  set den : ℚ := ((countiesOf pops).map (fun c => pairs2 (countyPop pops c))).sum
    with hden_def
  have hden_pos : 0 < den := by
    obtain ⟨c₀, hc₀, hP⟩ := hbig
    have hterm : (1 : ℚ) ≤ pairs2 (countyPop pops c₀) := pairs2_one_le hP
    have hnn' : ∀ x ∈ (countiesOf pops).map (fun c => pairs2 (countyPop pops c)), 0 ≤ x := by
      intro x hx
      rcases List.mem_map.mp hx with ⟨c, _, rfl⟩
      exact pairs2_nonneg _
    have hmem := List.mem_map_of_mem (fun c => pairs2 (countyPop pops c)) hc₀
    have := mem_le_sum_of_nonneg hnn' _ hmem
    rw [← hden_def] at this
    linarith
  have hnum_nonneg : 0 ≤ num := by
    apply List.sum_nonneg
    intro x hx
    rcases List.mem_map.mp hx with ⟨kv, _, rfl⟩
    exact pairs2_nonneg _
  have hcounty : ∀ c ∈ countiesOf pops,
      ((countyEntries pops c).map (fun kv => pairs2 kv.2)).sum
        ≤ pairs2 (countyPop pops c) := by
    intro c _
    set vals : List ℤ := (countyEntries pops c).map (fun kv => kv.2) with hvals
    have hvals_nn : ∀ x ∈ vals, 0 ≤ x := by
      intro x hx
      rcases List.mem_map.mp hx with ⟨kv, hkv, rfl⟩
      exact hnn kv (List.mem_of_mem_filter hkv)
    have h1 : ((countyEntries pops c).map (fun kv => pairs2 kv.2)).sum
        = (vals.map pairs2).sum := by
      rw [hvals, List.map_map]
      rfl
    have h2 := sum_map_pairs2 vals
    have h3 := sum_mul_pred_le vals hvals_nn
    have hP : countyPop pops c = vals.sum := rfl
    rw [h1, h2]
    unfold pairs2
    rw [hP]
    gcongr
  have hnumden : num ≤ den := by
    have hpart := sum_over_counties pops (fun kv => pairs2 kv.2)
    have hmono := List.sum_le_sum hcounty
    rw [hpart] at hmono
    exact hmono
  refine ⟨?_, div_nonneg hnum_nonneg hden_pos.le, ?_, ?_⟩
  · simp only [preserved_pairs, ← hnum_def, ← hden_def]
    rw [if_neg (ne_of_gt hden_pos)]
  · rw [div_le_one hden_pos]
    exact hnumden
  · have hc : countiesOf [(((0 : ℕ), (1 : ℕ)), (60 : ℤ)), (((0 : ℕ), (2 : ℕ)), (40 : ℤ))]
        = [0] := by decide
    have hp : countyPop [(((0 : ℕ), (1 : ℕ)), (60 : ℤ)), (((0 : ℕ), (2 : ℕ)), (40 : ℤ))] 0
        = 100 := by decide
    simp only [preserved_pairs, hc, hp, List.map_cons, List.map_nil, List.sum_cons,
      List.sum_nil, pairs2]
    norm_num

theorem claim_C5_witness :
    preserved_pairs [(((0 : ℕ), (1 : ℕ)), (60 : ℤ)), (((0 : ℕ), (2 : ℕ)), (40 : ℤ))]
      = .ok ((1770 + 780 : ℚ) / 4950) :=
  (claim_C5_preserved_pairs_formula
    [(((0 : ℕ), (1 : ℕ)), (60 : ℤ)), (((0 : ℕ), (2 : ℕ)), (40 : ℤ))]
    (by decide) (by decide) ⟨0, by decide, by decide⟩).2.2.2

end PreservedPairsClaim

section LargestIntersectionClaim

/-- Claim C6: on a non-empty mapping of non-negative populations with a
positive grand total, `largest_intersection` returns the sum over counties
of the county's largest single intersection divided by the grand total;
the value lies in `[0,1]` and equals `1` when no county is split (exactly
one intersection per county). -/
theorem claim_C6_largest_intersection_formula (pops : Pops)
    (hne : pops ≠ [])
    (hnn : ∀ kv ∈ pops, 0 ≤ kv.2)
    (hpos : 0 < totalPop pops) :
    largest_intersection pops
        = .ok (((((countiesOf pops).map (fun c => countyMax pops c)).sum : ℤ) : ℚ)
            / ((totalPop pops : ℤ) : ℚ)) ∧
    0 ≤ ((((countiesOf pops).map (fun c => countyMax pops c)).sum : ℤ) : ℚ)
          / ((totalPop pops : ℤ) : ℚ) ∧
    ((((countiesOf pops).map (fun c => countyMax pops c)).sum : ℤ) : ℚ)
          / ((totalPop pops : ℤ) : ℚ) ≤ 1 ∧
    ((∀ c ∈ countiesOf pops, (countyEntries pops c).length = 1) →
      ((((countiesOf pops).map (fun c => countyMax pops c)).sum : ℤ) : ℚ)
          / ((totalPop pops : ℤ) : ℚ) = 1) := by
  have hmax_mem : ∀ c ∈ countiesOf pops,
      ∃ kv ∈ countyEntries pops c, countyMax pops c = kv.2 := by
    intro c hc
    have hne' : (countyEntries pops c).map (fun kv => kv.2) ≠ [] := by
      intro hnil
      exact countyEntries_ne_nil pops c hc (List.map_eq_nil.mp hnil)
    have := pyMax_mem hne'
    rcases List.mem_map.mp this with ⟨kv, hkv, hval⟩
    exact ⟨kv, hkv, hval.symm⟩
  have hmax_nonneg : ∀ c ∈ countiesOf pops, 0 ≤ countyMax pops c := by
    intro c hc
    rcases hmax_mem c hc with ⟨kv, hkv, hval⟩
    rw [hval]
    exact hnn kv (List.mem_of_mem_filter hkv)
  have hmax_le : ∀ c ∈ countiesOf pops, countyMax pops c ≤ countyPop pops c := by
    intro c hc
    rcases hmax_mem c hc with ⟨kv, hkv, hval⟩
    rw [hval]
    apply mem_le_sum_of_nonneg
    · intro x hx
      rcases List.mem_map.mp hx with ⟨kv', hkv', rfl⟩
      exact hnn kv' (List.mem_of_mem_filter hkv')
    · exact List.mem_map_of_mem (fun kv => kv.2) hkv
  have hsum_nonneg : 0 ≤ ((countiesOf pops).map (fun c => countyMax pops c)).sum := by
    apply List.sum_nonneg
    intro x hx
    rcases List.mem_map.mp hx with ⟨c, hc, rfl⟩
    exact hmax_nonneg c hc
  have hsum_le : ((countiesOf pops).map (fun c => countyMax pops c)).sum ≤ totalPop pops := by
    have := List.sum_le_sum hmax_le
    rw [totalPop_eq_sum_countyPop] at this
    exact this
  have hq_nonneg : (0 : ℚ) ≤ (((countiesOf pops).map (fun c => countyMax pops c)).sum : ℚ)
      / ((totalPop pops : ℤ) : ℚ) := by
    apply div_nonneg
    · exact_mod_cast hsum_nonneg
    · exact_mod_cast hpos.le
  have hq_le_one : (((countiesOf pops).map (fun c => countyMax pops c)).sum : ℚ)
      / ((totalPop pops : ℤ) : ℚ) ≤ 1 := by
    rw [div_le_one (by exact_mod_cast hpos)]
    exact_mod_cast hsum_le
  refine ⟨?_, hq_nonneg, hq_le_one, ?_⟩
  · simp only [largest_intersection]
    rw [if_neg (ne_of_gt hpos)]
  · intro hsplit
    have hmax_eq : ∀ c ∈ countiesOf pops, countyMax pops c = countyPop pops c := by
      intro c hc
      rcases List.length_eq_one.mp (hsplit c hc) with ⟨kv, hkv⟩
      simp [countyMax, countyPop, hkv, pyMax]
    have hcongr : (countiesOf pops).map (fun c => countyMax pops c)
        = (countiesOf pops).map (fun c => countyPop pops c) :=
      List.map_congr_left hmax_eq
    rw [hcongr, totalPop_eq_sum_countyPop]
    exact div_self (by exact_mod_cast ne_of_gt hpos)

theorem claim_C6_witness :
    largest_intersection [(((0 : ℕ), (1 : ℕ)), (100 : ℤ)), (((1 : ℕ), (1 : ℕ)), (50 : ℤ))]
      = .ok 1 := by
  have h := claim_C6_largest_intersection_formula
    [(((0 : ℕ), (1 : ℕ)), (100 : ℤ)), (((1 : ℕ), (1 : ℕ)), (50 : ℤ))]
    (by decide) (by decide) (by decide)
  rw [h.1, h.2.2.2 (by decide)]

end LargestIntersectionClaim

section DegenerateClaims

lemma sum_eq_zero_all_zero {l : List ℤ} (hnn : ∀ x ∈ l, 0 ≤ x) (hz : l.sum = 0) :
    ∀ x ∈ l, x = 0 := by
  intro x hx
  have h1 := mem_le_sum_of_nonneg hnn x hx
  have h2 := hnn x hx
  omega

lemma min_entropy_error_of_zero_total (pops : Pops)
    (hnn : ∀ kv ∈ pops, 0 ≤ kv.2) (hz : totalPop pops = 0) :
    min_entropy pops = .error .zeroDivisionError := by
  match hp : pops with
  | [] => simp [min_entropy, countiesOf, totalPop]
  | kv :: rest =>
    have hall : ∀ kv' ∈ kv :: rest, kv'.2 = (0 : ℤ) := by
      intro kv' hkv'
      have hvals_nn : ∀ x ∈ (kv :: rest).map (fun kv => kv.2), 0 ≤ x := by
        intro x hx
        rcases List.mem_map.mp hx with ⟨kv'', hkv'', rfl⟩
        exact hnn kv'' hkv''
      exact sum_eq_zero_all_zero hvals_nn hz _ (List.mem_map_of_mem _ hkv')
    have hc : kv.1.1 ∈ countiesOf (kv :: rest) := by
      apply List.mem_dedup.mpr
      exact List.mem_map_of_mem _ (List.mem_cons_self kv rest)
    have hcp : countyPop (kv :: rest) kv.1.1 = 0 := by
      apply List.sum_eq_zero
      intro x hx
      rcases List.mem_map.mp hx with ⟨kv', hkv', rfl⟩
      exact hall kv' (List.mem_of_mem_filter hkv')
    have hany : (countiesOf (kv :: rest)).any
        (fun c => decide (countyPop (kv :: rest) c = 0)) = true :=
      List.any_eq_true.mpr ⟨kv.1.1, hc, by simp [hcp]⟩
    simp only [min_entropy]
    rw [if_pos hany]

/-- Claim C1: on the degenerate inputs whose statistic is undefined — the
empty mapping for all three ratio metrics, any non-negative mapping whose
county totals are all `≤ 1` for `preserved_pairs`, and any non-negative
mapping with zero grand total for `largest_intersection` and
`min_entropy` — each metric raises a `ZeroDivisionError` (an
`Except.error`, which is catchable and distinct from every `.ok` score, so
`0`, `1`, or `NaN` is never silently returned). -/
theorem claim_C1_degenerate_inputs_raise (pops : Pops)
    (hnn : ∀ kv ∈ pops, 0 ≤ kv.2) :
    (pops = [] →
      preserved_pairs pops = .error .zeroDivisionError ∧
      largest_intersection pops = .error .zeroDivisionError ∧
      min_entropy pops = .error .zeroDivisionError) ∧
    ((∀ c ∈ countiesOf pops, countyPop pops c ≤ 1) →
      preserved_pairs pops = .error .zeroDivisionError) ∧
    (totalPop pops = 0 →
      largest_intersection pops = .error .zeroDivisionError ∧
      min_entropy pops = .error .zeroDivisionError) := by
  refine ⟨?_, ?_, ?_⟩
  · rintro rfl
    refine ⟨?_, ?_, ?_⟩
    · simp [preserved_pairs, countiesOf]
    · simp [largest_intersection, totalPop]
    · simp [min_entropy, countiesOf, totalPop]
  · intro hsmall
    have hden : ((countiesOf pops).map (fun c => pairs2 (countyPop pops c))).sum = 0 := by
      apply List.sum_eq_zero
      intro x hx
      rcases List.mem_map.mp hx with ⟨c, hc, rfl⟩
      have hcp_nn : (0 : ℤ) ≤ countyPop pops c := by
        apply List.sum_nonneg
        intro v hv
        rcases List.mem_map.mp hv with ⟨kv, hkv, rfl⟩
        exact hnn kv (List.mem_of_mem_filter hkv)
      exact pairs2_eq_zero hcp_nn (hsmall c hc)
    simp only [preserved_pairs]
    rw [if_pos hden]
  · intro hz
    refine ⟨?_, min_entropy_error_of_zero_total pops hnn hz⟩
    simp only [largest_intersection]
    rw [if_pos hz]

theorem claim_C1_witness :
    preserved_pairs [] = .error .zeroDivisionError ∧
    largest_intersection [] = .error .zeroDivisionError ∧
    min_entropy [] = .error .zeroDivisionError :=
  (claim_C1_degenerate_inputs_raise [] (by simp)).1 rfl

end DegenerateClaims

section EntropyClaims

/-- One county's contribution `Σ_i p_i · log2(p_i / P)` as a real number
(the value the float computation tracks when no special value arises). -/
noncomputable def countyEntropyReal (pops : Pops) (c : ℕ) : ℝ :=
  ((countyEntries pops c).map
    (fun kv => (kv.2 : ℝ) * Real.logb 2 ((kv.2 : ℝ) / (countyPop pops c : ℝ)))).sum

/-- The base-2 conditional entropy of the district partition given the
county partition: `-(Σ over counties of Σ_i p_i·log2(p_i/P)) / total`. -/
noncomputable def condEntropy (pops : Pops) : ℝ :=
  (-1) * ((countiesOf pops).map (fun c => countyEntropyReal pops c)).sum
    / (totalPop pops : ℝ)

lemma sum_nonpos_of_nonpos {l : List ℝ} (h : ∀ x ∈ l, x ≤ 0) : l.sum ≤ 0 := by
  induction l with
  | nil => simp
  | cons a l ih =>
    have ha := h a (List.mem_cons_self a l)
    have hl := ih (fun x hx => h x (List.mem_cons_of_mem a hx))
    simp only [List.sum_cons]
    linarith

lemma foldl_addRVal_val {α : Type} (l : List α) (f : α → ℝ) :
    ∀ a : ℝ, (l.map (fun x => RVal.val (f x))).foldl addRVal (.val a)
      = .val (a + (l.map f).sum) := by
  induction l with
  | nil => intro a; simp
  | cons x l ih =>
    intro a
    simp only [List.map_cons, List.foldl_cons, addRVal, List.sum_cons, ih (a + f x)]
    rw [add_assoc]

lemma sumRVal_map_val {α : Type} (l : List α) (f : α → ℝ) :
    sumRVal (l.map (fun x => RVal.val (f x))) = .val ((l.map f).sum) := by
  unfold sumRVal
  rw [foldl_addRVal_val l f 0, zero_add]

lemma countyEntropy_val (pops : Pops) (c : ℕ)
    (hpos : ∀ kv ∈ countyEntries pops c, 0 < kv.2)
    (hP : 0 < countyPop pops c) :
    countyEntropy pops c = .val (countyEntropyReal pops c) := by
  unfold countyEntropy countyEntropyReal
  have hmap : (countyEntries pops c).map
      (fun kv => intMulRVal kv.2 (npLog2 ((kv.2 : ℚ) / (countyPop pops c : ℚ))))
      = (countyEntries pops c).map
        (fun kv => RVal.val ((kv.2 : ℝ) * Real.logb 2 ((kv.2 : ℝ) / (countyPop pops c : ℝ)))) := by
    apply List.map_congr_left
    intro kv hkv
    have hq : (0 : ℚ) < (kv.2 : ℚ) / (countyPop pops c : ℚ) := by
      apply div_pos
      · exact_mod_cast hpos kv hkv
      · exact_mod_cast hP
    rw [npLog2, if_pos hq]
    simp only [intMulRVal]
    congr 1
    push_cast
    ring_nf
  rw [hmap, sumRVal_map_val]

/-- Claim C7: on a non-empty mapping of strictly positive populations,
`min_entropy` returns `1 / (1 + H)` with `H` the base-2 conditional
entropy of districts given counties; `H ≥ 0`, so the score lies in
`(0, 1]`, and it equals `1` when no county is split (each county has
exactly one intersection, so `H = 0`). -/
theorem claim_C7_min_entropy_formula (pops : Pops)
    (hne : pops ≠ [])
    (hpos : ∀ kv ∈ pops, 0 < kv.2) :
    min_entropy pops = .ok (.val (1 / (1 + condEntropy pops))) ∧
    0 ≤ condEntropy pops ∧
    0 < 1 / (1 + condEntropy pops) ∧
    1 / (1 + condEntropy pops) ≤ 1 ∧
    ((∀ c ∈ countiesOf pops, (countyEntries pops c).length = 1) →
      1 / (1 + condEntropy pops) = 1) := by
  have hPpos : ∀ c ∈ countiesOf pops, 0 < countyPop pops c := by
    intro c hc
    apply List.sum_pos
    · intro v hv
      rcases List.mem_map.mp hv with ⟨kv, hkv, rfl⟩
      exact hpos kv (List.mem_of_mem_filter hkv)
    · intro hnil
      exact countyEntries_ne_nil pops c hc (List.map_eq_nil_iff.mp hnil)
  have htot : 0 < totalPop pops := by
    apply List.sum_pos
    · intro v hv
      rcases List.mem_map.mp hv with ⟨kv, hkv, rfl⟩
      exact hpos kv hkv
    · intro hnil
      exact hne (List.map_eq_nil_iff.mp hnil)
  have hcne : countiesOf pops ≠ [] := by
    match hp : pops with
    | [] => exact absurd rfl hne
    | kv :: rest =>
      intro hnil
      have : kv.1.1 ∈ countiesOf (kv :: rest) :=
        List.mem_dedup.mpr (List.mem_map_of_mem _ (List.mem_cons_self kv rest))
      rw [hnil] at this
      simp at this
  have hterm_nonpos : ∀ c ∈ countiesOf pops, countyEntropyReal pops c ≤ 0 := by
    intro c hc
    apply sum_nonpos_of_nonpos
    intro x hx
    rcases List.mem_map.mp hx with ⟨kv, hkv, rfl⟩
    have hv : 0 < kv.2 := hpos kv (List.mem_of_mem_filter hkv)
    have hvle : kv.2 ≤ countyPop pops c := by
      apply mem_le_sum_of_nonneg
      · intro v hv'
        rcases List.mem_map.mp hv' with ⟨kv', hkv', rfl⟩
        exact (hpos kv' (List.mem_of_mem_filter hkv')).le
      · exact List.mem_map_of_mem (fun kv => kv.2) hkv
    have hratio_pos : (0 : ℝ) < (kv.2 : ℝ) / (countyPop pops c : ℝ) := by
      apply div_pos
      · exact_mod_cast hv
      · exact_mod_cast hPpos c hc
    have hratio_le : (kv.2 : ℝ) / (countyPop pops c : ℝ) ≤ 1 := by
      rw [div_le_one (by exact_mod_cast hPpos c hc)]
      exact_mod_cast hvle
    have hlog : Real.logb 2 ((kv.2 : ℝ) / (countyPop pops c : ℝ)) ≤ 0 :=
      Real.logb_nonpos (by norm_num) hratio_pos.le hratio_le
    have hv' : (0 : ℝ) ≤ (kv.2 : ℝ) := by exact_mod_cast hv.le
    exact mul_nonpos_iff.mpr (Or.inl ⟨hv', hlog⟩)
  have hS_nonpos : ((countiesOf pops).map (fun c => countyEntropyReal pops c)).sum ≤ 0 := by
    apply sum_nonpos_of_nonpos
    intro x hx
    rcases List.mem_map.mp hx with ⟨c, hc, rfl⟩
    exact hterm_nonpos c hc
  have hH_nonneg : 0 ≤ condEntropy pops := by
    unfold condEntropy
    apply div_nonneg
    · linarith
    · exact_mod_cast htot.le
  have h1H : (0 : ℝ) < 1 + condEntropy pops := by linarith
  have hval : min_entropy pops = .ok (.val (1 / (1 + condEntropy pops))) := by
    have hany : ¬ ((countiesOf pops).any
        (fun c => decide (countyPop pops c = 0)) = true) := by
      rw [List.any_eq_true]
      rintro ⟨c, hc, hdec⟩
      have : countyPop pops c = 0 := of_decide_eq_true hdec
      exact absurd this (ne_of_gt (hPpos c hc))
    have hmap : (countiesOf pops).map (fun c => countyEntropy pops c)
        = (countiesOf pops).map (fun c => RVal.val (countyEntropyReal pops c)) := by
      apply List.map_congr_left
      intro c hc
      apply countyEntropy_val pops c
      · intro kv hkv
        exact hpos kv (List.mem_of_mem_filter hkv)
      · exact hPpos c hc
    have hnd : negDivRVal
        (.val (((countiesOf pops).map (fun c => countyEntropyReal pops c)).sum))
        (totalPop pops) = .val (condEntropy pops) := by
      simp only [negDivRVal]
      rw [if_neg (ne_of_gt htot)]
      congr 1
      unfold condEntropy
      ring
    simp only [min_entropy]
    rw [if_neg hany]
    rw [if_neg (by simp [List.isEmpty_iff, hcne])]
    rw [hmap, sumRVal_map_val, hnd]
    simp only [recip1p]
    rw [if_neg (by intro hcontra; rw [hcontra] at hH_nonneg; norm_num at hH_nonneg)]
  refine ⟨hval, hH_nonneg, by positivity, ?_, ?_⟩
  · rw [div_le_one h1H]
    linarith
  · intro hsplit
    have hzero : ∀ c ∈ countiesOf pops, countyEntropyReal pops c = 0 := by
      intro c hc
      rcases List.length_eq_one.mp (hsplit c hc) with ⟨kv, hkv⟩
      have hkvmem : kv ∈ countyEntries pops c := by
        rw [hkv]; exact List.mem_singleton_self kv
      have hv : (0 : ℤ) < kv.2 := hpos kv (List.mem_of_mem_filter hkvmem)
      have hP : countyPop pops c = kv.2 := by simp [countyPop, hkv]
      unfold countyEntropyReal
      rw [hkv, hP]
      simp only [List.map_cons, List.map_nil, List.sum_cons, List.sum_nil]
      have hratio : (kv.2 : ℝ) / (kv.2 : ℝ) = 1 := div_self (by exact_mod_cast ne_of_gt hv)
      rw [hratio, Real.logb_one]
      ring
    have hsum0 : ((countiesOf pops).map (fun c => countyEntropyReal pops c)).sum = 0 :=
      List.sum_eq_zero (by
        intro x hx
        rcases List.mem_map.mp hx with ⟨c, hc, rfl⟩
        exact hzero c hc)
    have hH0 : condEntropy pops = 0 := by
      unfold condEntropy
      rw [hsum0]
      simp
    rw [hH0]
    norm_num

theorem claim_C7_witness :
    min_entropy [(((0 : ℕ), (1 : ℕ)), (5 : ℤ))] = .ok (.val 1) := by
  have h := claim_C7_min_entropy_formula [(((0 : ℕ), (1 : ℕ)), (5 : ℤ))]
    (by decide) (by decide)
  rw [h.1, h.2.2.2.2 (by decide)]

/-- Claim C2 (evaluation at the failing input): on the mapping
`[(A,1) ↦ 0, (A,2) ↦ 100]` the source computes
`0 * np.log2(0/100) = 0 * (-inf) = nan`, so `min_entropy` returns `NaN`
rather than treating the zero entry's contribution as `0`; the same
mapping with the zero entry removed scores `1`, so the two results
differ.  (The call does not raise, so the score is silently `NaN`.) -/
theorem claim_C2_zero_entry_yields_nan :
    min_entropy [(((0 : ℕ), (1 : ℕ)), (0 : ℤ)), (((0 : ℕ), (2 : ℕ)), (100 : ℤ))]
        = .ok .nan ∧
    min_entropy [(((0 : ℕ), (2 : ℕ)), (100 : ℤ))] = .ok (.val 1) ∧
    RVal.nan ≠ RVal.val 1 := by
  refine ⟨?_, ?_, fun h => RVal.noConfusion h⟩
  · have hc : countiesOf [(((0 : ℕ), (1 : ℕ)), (0 : ℤ)), (((0 : ℕ), (2 : ℕ)), (100 : ℤ))]
        = [0] := by decide
    have hp : countyPop [(((0 : ℕ), (1 : ℕ)), (0 : ℤ)), (((0 : ℕ), (2 : ℕ)), (100 : ℤ))] 0
        = 100 := by decide
    have he : countyEntries [(((0 : ℕ), (1 : ℕ)), (0 : ℤ)), (((0 : ℕ), (2 : ℕ)), (100 : ℤ))] 0
        = [(((0 : ℕ), (1 : ℕ)), (0 : ℤ)), (((0 : ℕ), (2 : ℕ)), (100 : ℤ))] := by decide
    have ht : totalPop [(((0 : ℕ), (1 : ℕ)), (0 : ℤ)), (((0 : ℕ), (2 : ℕ)), (100 : ℤ))]
        = 100 := by decide
    have hce : countyEntropy [(((0 : ℕ), (1 : ℕ)), (0 : ℤ)), (((0 : ℕ), (2 : ℕ)), (100 : ℤ))] 0
        = .nan := by
      unfold countyEntropy
      rw [he, hp]
      have h1 : ((0 : ℤ) : ℚ) / ((100 : ℤ) : ℚ) = 0 := by norm_num
      have h2 : ((100 : ℤ) : ℚ) / ((100 : ℤ) : ℚ) = 1 := by norm_num
      simp only [List.map_cons, List.map_nil, h1, h2]
      rw [npLog2, if_neg (by norm_num), if_pos rfl]
      rw [npLog2, if_pos (by norm_num)]
      simp only [intMulRVal]
      simp [sumRVal, addRVal]
    simp only [min_entropy, hc, ht]
    rw [if_neg (by simp [hp])]
    rw [if_neg (by simp)]
    simp only [List.map_cons, List.map_nil, hce]
    simp [sumRVal, addRVal, negDivRVal, recip1p]
  · have hc : countiesOf [(((0 : ℕ), (2 : ℕ)), (100 : ℤ))] = [0] := by decide
    have hp : countyPop [(((0 : ℕ), (2 : ℕ)), (100 : ℤ))] 0 = 100 := by decide
    have he : countyEntries [(((0 : ℕ), (2 : ℕ)), (100 : ℤ))] 0
        = [(((0 : ℕ), (2 : ℕ)), (100 : ℤ))] := by decide
    have ht : totalPop [(((0 : ℕ), (2 : ℕ)), (100 : ℤ))] = 100 := by decide
    have hce : countyEntropy [(((0 : ℕ), (2 : ℕ)), (100 : ℤ))] 0 = .val 0 := by
      unfold countyEntropy
      rw [he, hp]
      have h2 : ((100 : ℤ) : ℚ) / ((100 : ℤ) : ℚ) = 1 := by norm_num
      simp only [List.map_cons, List.map_nil, h2]
      rw [npLog2, if_pos (by norm_num)]
      simp only [intMulRVal]
      simp [sumRVal, addRVal, Real.logb_one]
    simp only [min_entropy, hc, ht]
    rw [if_neg (by simp [hp])]
    rw [if_neg (by simp)]
    simp only [List.map_cons, List.map_nil, hce]
    simp only [sumRVal, List.foldl_cons, List.foldl_nil, addRVal, add_zero]
    simp only [negDivRVal]
    rw [if_neg (by norm_num)]
    simp only [recip1p]
    rw [if_neg (by norm_num)]
    norm_num

end EntropyClaims

section NegativeValueClaim

/-- Claim C3 (evaluation at the failing input): the core performs no
negative-value validation.  `threshold` keeps a negative entry whenever it
is not below the cutoff, and the metrics compute scores from negative
values without raising: on `[(A,1) ↦ -5, (A,2) ↦ 10]` `preserved_pairs`
silently returns the nonsensical "probability" `6` and
`largest_intersection` returns `2`, both outside `[0,1]`, instead of the
boundary error the claim requires. -/
theorem claim_C3_negative_values_not_rejected :
    threshold [(((0 : ℕ), (1 : ℕ)), (-5 : ℤ))] (-10)
        = [(((0 : ℕ), (1 : ℕ)), (-5 : ℤ))] ∧
    preserved_pairs [(((0 : ℕ), (1 : ℕ)), (-5 : ℤ)), (((0 : ℕ), (2 : ℕ)), (10 : ℤ))]
        = .ok 6 ∧
    largest_intersection [(((0 : ℕ), (1 : ℕ)), (-5 : ℤ)), (((0 : ℕ), (2 : ℕ)), (10 : ℤ))]
        = .ok 2 ∧
    ¬ ((6 : ℚ) ≤ 1) := by
  refine ⟨by decide, ?_, ?_, by norm_num⟩
  · have hc : countiesOf [(((0 : ℕ), (1 : ℕ)), (-5 : ℤ)), (((0 : ℕ), (2 : ℕ)), (10 : ℤ))]
        = [0] := by decide
    have hp : countyPop [(((0 : ℕ), (1 : ℕ)), (-5 : ℤ)), (((0 : ℕ), (2 : ℕ)), (10 : ℤ))] 0
        = 5 := by decide
    simp only [preserved_pairs, hc, hp, List.map_cons, List.map_nil, List.sum_cons,
      List.sum_nil, pairs2]
    norm_num
  · have hc : countiesOf [(((0 : ℕ), (1 : ℕ)), (-5 : ℤ)), (((0 : ℕ), (2 : ℕ)), (10 : ℤ))]
        = [0] := by decide
    have hm : countyMax [(((0 : ℕ), (1 : ℕ)), (-5 : ℤ)), (((0 : ℕ), (2 : ℕ)), (10 : ℤ))] 0
        = 10 := by decide
    have ht : totalPop [(((0 : ℕ), (1 : ℕ)), (-5 : ℤ)), (((0 : ℕ), (2 : ℕ)), (10 : ℤ))]
        = 5 := by decide
    simp only [largest_intersection, hc, hm, ht, List.map_cons, List.map_nil,
      List.sum_cons, List.sum_nil]
    rw [if_neg (by norm_num)]
    norm_num

end NegativeValueClaim

end CountySplits
